import Mathlib

/-
Shallow embedding of the memory-mapped, log-structured key-value store
(store.go).  The arena (the mmap'd byte region) is modelled as a total
function from offsets to byte values; keys and values are byte lists;
the index is a function from keys to optional offsets, mirroring the Go
map.  Machine 32-bit truncation (uint32 casts) is modelled with explicit
mod 2^32.  The Msync call in put may fail; its outcome is passed as a
boolean parameter.  Out-of-range slice accesses in Go would panic; the
model reads the total arena function instead, and bounds are tracked as
explicit propositions where a claim concerns them.
-/

namespace KVStore

/-- maxSize constant from store.go: 1024 * 1024 * 8 bytes. -/
def maxSize : Nat := 1024 * 1024 * 8

abbrev Bytes := List Nat

abbrev Arena := Nat → Nat

abbrev Idx := Bytes → Option Nat

/-- Errors the store functions can return: ErrKeyNotFound, the
"store full" error in put, and a failing unix.Msync (an I/O error). -/
inductive StoreErr
  | keyNotFound
  | full
  | io
deriving DecidableEq

structure Store where
  data : Arena
  idx : Idx
  writingPosition : Nat

/-- binary.LittleEndian.Uint32: read four bytes little-endian. -/
def getUint32LE (d : Arena) (pos : Nat) : Nat :=
  d pos + 256 * d (pos + 1) + 65536 * d (pos + 2) + 16777216 * d (pos + 3)

/-- binary.LittleEndian.PutUint32: write the four little-endian bytes of n. -/
def putUint32LE (d : Arena) (pos n : Nat) : Arena := fun i =>
  if i = pos then n % 256
  else if i = pos + 1 then n / 256 % 256
  else if i = pos + 2 then n / 65536 % 256
  else if i = pos + 3 then n / 16777216 % 256
  else d i

/-- copy(data[pos:], bs): write the bytes of bs starting at pos. -/
def writeBytes (d : Arena) (pos : Nat) (bs : Bytes) : Arena := fun i =>
  if pos ≤ i ∧ i < pos + bs.length then bs.getD (i - pos) 0 else d i

/-- data[pos : pos+len] as a byte list. -/
def readBytes (d : Arena) (pos len : Nat) : Bytes :=
  (List.range len).map fun j => d (pos + j)

def emptyIdx : Idx := fun _ => none

/-- The store right after mapping a freshly truncated (all-zero) file:
empty index, cursor 0, zero bytes. -/
def initStore : Store := ⟨fun _ => 0, emptyIdx, 0⟩

/-- get (store.go lines 86-105): look up the offset, decode the header
there, return the value bytes; none models ErrKeyNotFound. -/
def get (s : Store) (key : Bytes) : Option Bytes :=
  match s.idx key with
  | none => none
  | some off =>
    let klen := getUint32LE s.data off
    let vlen := getUint32LE s.data (off + 4)
    some (readBytes s.data (off + 8 + klen) vlen)

/-- put (store.go lines 107-137).  flushOk is the outcome of the
unix.Msync call; note the Go code mutates data, idx and
writingPosition before calling Msync, so the post-state is the same
whether the flush succeeds or not - only the returned error differs. -/
def put (s : Store) (key value : Bytes) (flushOk : Bool) : Store × Option StoreErr :=
  let klen := key.length
  let vlen := value.length
  let recordSize := 8 + klen + vlen
  if maxSize < s.writingPosition + recordSize then (s, some .full)
  else
    let d1 := putUint32LE s.data s.writingPosition (klen % 4294967296)
    let d2 := putUint32LE d1 (s.writingPosition + 4) (vlen % 4294967296)
    let d3 := writeBytes d2 (s.writingPosition + 8) key
    let d4 := writeBytes d3 (s.writingPosition + 8 + klen) value
    let s' : Store :=
      ⟨d4, fun k => if k = key then some s.writingPosition else s.idx k,
       s.writingPosition + recordSize⟩
    (s', if flushOk then none else some .io)

/-- deleteVal (store.go lines 139-146): unconditionally remove the key
from the index and return nil; the arena and cursor are untouched. -/
def deleteVal (s : Store) (key : Bytes) : Store × Option StoreErr :=
  (⟨s.data, fun k => if k = key then none else s.idx k, s.writingPosition⟩, none)

/-- The loop of fix_Idx (store.go lines 68-84).  The fuel argument only
bounds the iteration count for structural recursion: every iteration
either stops or advances the position by at least 9 bytes, so maxSize
units of fuel are never exhausted when starting from position 0. -/
def fixIdxLoop (d : Arena) : Nat → Nat → Idx → Idx × Nat
  | 0, pos, idx => (idx, pos)
  | fuel + 1, pos, idx =>
    if pos + 8 ≤ maxSize then
      let key_len := getUint32LE d pos
      let value_len := getUint32LE d (pos + 4)
      if key_len = 0 ∧ value_len = 0 then (idx, pos)
      else
        fixIdxLoop d fuel (pos + 8 + key_len + value_len)
          (fun k => if k = readBytes d (pos + 8) key_len then some pos else idx k)
    else (idx, pos)

/-- fix_Idx run at startup on a fresh empty index, returning the rebuilt
index and the recovered writingPosition. -/
def fixIdx (d : Arena) : Idx × Nat := fixIdxLoop d maxSize 0 emptyIdx

/-- A process restart: the arena file persists, the in-memory index and
cursor are rebuilt by fix_Idx. -/
def restart (s : Store) : Store :=
  ⟨s.data, (fixIdx s.data).1, (fixIdx s.data).2⟩

/-- An on-disk record: a key and a value (layout: 8-byte header with the
two u32 lengths, then the key bytes, then the value bytes). -/
structure Record where
  key : Bytes
  val : Bytes
deriving DecidableEq

def recSize (r : Record) : Nat := 8 + r.key.length + r.val.length

/-- The arena holds the encoding of record r at position pos. -/
def recAt (d : Arena) (pos : Nat) (r : Record) : Prop :=
  getUint32LE d pos = r.key.length ∧
  getUint32LE d (pos + 4) = r.val.length ∧
  readBytes d (pos + 8) r.key.length = r.key ∧
  readBytes d (pos + 8 + r.key.length) r.val.length = r.val

/-- The arena holds the given records packed contiguously from pos. -/
def recsFrom (d : Arena) : Nat → List Record → Prop
  | _, [] => True
  | pos, r :: rs => recAt d pos r ∧ recsFrom d (pos + recSize r) rs

def sizeSum (rs : List Record) : Nat := (rs.map recSize).sum

/-- The index the scanner builds while walking the given records in
append order starting from pos (later records overwrite earlier ones). -/
def scanIdx : Idx → Nat → List Record → Idx
  | idx, _, [] => idx
  | idx, pos, r :: rs =>
    scanIdx (fun k => if k = r.key then some pos else idx k) (pos + recSize r) rs

/-- Offset of the most recent (last) record for a key among the given
records laid out from pos; none if the key has no record. -/
def lastOffset : List Record → Nat → Bytes → Option Nat
  | [], _, _ => none
  | r :: rs, pos, k =>
    match lastOffset rs (pos + recSize r) k with
    | some off => some off
    | none => if k = r.key then some pos else none

/-- External operations a client can perform on a live store. -/
inductive Op
  | put (key value : Bytes)
  | del (key : Bytes)

def applyOp (s : Store) : Op → Store
  | .put k v => (put s k v true).1
  | .del k => (deleteVal s k).1

def applyOps (s : Store) (ops : List Op) : Store := ops.foldl applyOp s

/-- History semantics of the append log with deletions ignored: the
cursor and the list of records a sequence of operations appends. -/
def histStep : Nat × List Record → Op → Nat × List Record
  | (pos, rs), .put k v =>
    if maxSize < pos + (8 + k.length + v.length) then (pos, rs)
    else (pos + (8 + k.length + v.length), rs ++ [⟨k, v⟩])
  | (pos, rs), .del _ => (pos, rs)

def histOf (ops : List Op) : Nat × List Record := ops.foldl histStep (0, [])

/-- The value of the most recent put for a key in a put sequence. -/
def lastVal : List (Bytes × Bytes) → Bytes → Option Bytes
  | [], _ => none
  | (k, v) :: ps, key =>
    match lastVal ps key with
    | some w => some w
    | none => if key = k then some v else none

/-- All puts in the sequence succeed (fit in capacity) when started at
the given cursor. -/
def putsFitB : Nat → List (Bytes × Bytes) → Bool
  | _, [] => true
  | pos, (k, v) :: ps =>
    if maxSize < pos + (8 + k.length + v.length) then false
    else putsFitB (pos + (8 + k.length + v.length)) ps

/-- An operation that never appends the reserved all-zero header
(a put of an empty key and an empty value). -/
def opNonSentB : Op → Bool
  | .put [] [] => false
  | .put _ _ => true
  | .del _ => true

def nonSentRec (r : Record) : Prop := ¬(r.key.length = 0 ∧ r.val.length = 0)

/-- Arena invariant as stated by the spec: the cursor is within capacity
and the bytes below it form a contiguous packed sequence of records. -/
def ArenaInv (s : Store) : Prop :=
  s.writingPosition ≤ maxSize ∧
  ∃ rs, recsFrom s.data 0 rs ∧ sizeSum rs = s.writingPosition

/-- A store with exactly 9 free bytes left before capacity. -/
def nearFullStore : Store := ⟨fun _ => 0, emptyIdx, maxSize - 9⟩

/-- An arena whose first header declares key length 1 and value length
8388608: the record would extend past capacity. -/
def badArena : Arena := fun i =>
  if i = 0 then 1 else if i = 6 then 128 else if i = 8 then 97 else 0

/-- A store state produced by: put("",""), put(byte 1, a 9-byte value
whose bytes spell a header with value length 8388608 followed by byte 7),
restart (the scan stops at the zero header, cursor back to 0),
put(byte 2, an 8-byte value) overwriting the first 17 bytes, restart.
The second restart scans the 17-byte record, then misreads the stale
tail of the earlier record as a header at offset 17. -/
def s10 : Store :=
  restart ((put (restart (applyOps initStore
    [Op.put [] [], Op.put [1] [1, 0, 0, 0, 0, 0, 128, 0, 7]]))
    [2] [1, 1, 1, 1, 1, 1, 1, 1] true).1)

/-! Byte-level lemmas about the little-endian codec and the arena writes. -/

theorem putUint32LE_frame (d : Arena) (pos n i : Nat) (h : i < pos ∨ pos + 4 ≤ i) :
    putUint32LE d pos n i = d i := by
  unfold putUint32LE
  rw [if_neg (by omega), if_neg (by omega), if_neg (by omega), if_neg (by omega)]

theorem putUint32LE_at0 (d : Arena) (pos n : Nat) : putUint32LE d pos n pos = n % 256 := by
  unfold putUint32LE
  rw [if_pos rfl]

theorem putUint32LE_at1 (d : Arena) (pos n : Nat) :
    putUint32LE d pos n (pos + 1) = n / 256 % 256 := by
  unfold putUint32LE
  rw [if_neg (by omega), if_pos rfl]

theorem putUint32LE_at2 (d : Arena) (pos n : Nat) :
    putUint32LE d pos n (pos + 2) = n / 65536 % 256 := by
  unfold putUint32LE
  rw [if_neg (by omega), if_neg (by omega), if_pos rfl]

theorem putUint32LE_at3 (d : Arena) (pos n : Nat) :
    putUint32LE d pos n (pos + 3) = n / 16777216 % 256 := by
  unfold putUint32LE
  rw [if_neg (by omega), if_neg (by omega), if_neg (by omega), if_pos rfl]

theorem digits_recompose (n : Nat) :
    n % 256 + 256 * (n / 256 % 256) + 65536 * (n / 65536 % 256) +
      16777216 * (n / 16777216 % 256) = n % 4294967296 := by
  omega

theorem getUint32LE_putUint32LE (d : Arena) (pos n : Nat) :
    getUint32LE (putUint32LE d pos n) pos = n % 4294967296 := by
  unfold getUint32LE
  rw [putUint32LE_at0, putUint32LE_at1, putUint32LE_at2, putUint32LE_at3]
  exact digits_recompose n

theorem writeBytes_frame (d : Arena) (pos : Nat) (bs : Bytes) (i : Nat)
    (h : i < pos ∨ pos + bs.length ≤ i) : writeBytes d pos bs i = d i := by
  unfold writeBytes
  rw [if_neg (by omega)]

theorem readBytes_length (d : Arena) (pos len : Nat) : (readBytes d pos len).length = len := by
  simp [readBytes]

theorem readBytes_congr (d d' : Arena) (pos len : Nat)
    (h : ∀ j, j < len → d' (pos + j) = d (pos + j)) :
    readBytes d' pos len = readBytes d pos len := by
  unfold readBytes
  refine List.map_congr_left ?_
  intro j hj
  exact h j (List.mem_range.mp hj)

theorem readBytes_writeBytes (d : Arena) (pos : Nat) (bs : Bytes) :
    readBytes (writeBytes d pos bs) pos bs.length = bs := by
  apply List.ext_getElem
  · simp [readBytes]
  · intro i h1 h2
    simp only [readBytes, List.getElem_map, List.getElem_range]
    unfold writeBytes
    rw [if_pos (by constructor <;> omega)]
    have : pos + i - pos = i := by omega
    rw [this, List.getD_eq_getElem bs 0 h2]

theorem getUint32LE_congr (d d' : Arena) (pos : Nat)
    (h : ∀ j, j < 4 → d' (pos + j) = d (pos + j)) :
    getUint32LE d' pos = getUint32LE d pos := by
  have h0 := h 0 (by omega)
  have h1 := h 1 (by omega)
  have h2 := h 2 (by omega)
  have h3 := h 3 (by omega)
  rw [Nat.add_zero] at h0
  unfold getUint32LE
  rw [h0, h1, h2, h3]

theorem getUint32LE_eq_zero (d : Arena) (pos p : Nat) (hp : p ≤ pos)
    (h : ∀ i, p ≤ i → d i = 0) : getUint32LE d pos = 0 := by
  unfold getUint32LE
  rw [h pos hp, h (pos + 1) (by omega), h (pos + 2) (by omega), h (pos + 3) (by omega)]

/-! Record-layout lemmas. -/

theorem recSize_ge (r : Record) : 8 ≤ recSize r := by
  unfold recSize
  omega

theorem sizeSum_nil : sizeSum [] = 0 := rfl

theorem sizeSum_cons (r : Record) (rs : List Record) :
    sizeSum (r :: rs) = recSize r + sizeSum rs := by
  simp [sizeSum]

theorem sizeSum_append (rs₁ rs₂ : List Record) :
    sizeSum (rs₁ ++ rs₂) = sizeSum rs₁ + sizeSum rs₂ := by
  simp [sizeSum]

theorem sizeSum_length (rs : List Record) : 8 * rs.length ≤ sizeSum rs := by
  induction rs with
  | nil => simp [sizeSum]
  | cons r rs ih =>
    rw [sizeSum_cons]
    have := recSize_ge r
    simp only [List.length_cons]
    omega

theorem recAt_congr (d d' : Arena) (pos : Nat) (r : Record)
    (h : ∀ i, i < pos + recSize r → d' i = d i) (hr : recAt d pos r) : recAt d' pos r := by
  obtain ⟨h1, h2, h3, h4⟩ := hr
  have hsz : recSize r = 8 + r.key.length + r.val.length := rfl
  refine ⟨?_, ?_, ?_, ?_⟩
  · rw [getUint32LE_congr d d' pos (fun j hj => h (pos + j) (by omega))]
    exact h1
  · rw [getUint32LE_congr d d' (pos + 4) (fun j hj => h (pos + 4 + j) (by omega))]
    exact h2
  · rw [readBytes_congr d d' (pos + 8) r.key.length (fun j hj => h (pos + 8 + j) (by omega))]
    exact h3
  · rw [readBytes_congr d d' (pos + 8 + r.key.length) r.val.length
      (fun j hj => h (pos + 8 + r.key.length + j) (by omega))]
    exact h4

theorem recsFrom_congr (d d' : Arena) (rs : List Record) (pos : Nat)
    (h : ∀ i, i < pos + sizeSum rs → d' i = d i) (hr : recsFrom d pos rs) :
    recsFrom d' pos rs := by
  induction rs generalizing pos with
  | nil => trivial
  | cons r rs ih =>
    obtain ⟨ha, hrest⟩ := hr
    rw [sizeSum_cons] at h
    refine ⟨recAt_congr d d' pos r (fun i hi => h i (by omega)) ha, ?_⟩
    exact ih (pos + recSize r) (fun i hi => h i (by omega)) hrest

theorem recsFrom_append (d : Arena) (rs₁ rs₂ : List Record) (pos : Nat) :
    recsFrom d pos (rs₁ ++ rs₂) ↔
      recsFrom d pos rs₁ ∧ recsFrom d (pos + sizeSum rs₁) rs₂ := by
  induction rs₁ generalizing pos with
  | nil =>
    simp [recsFrom, sizeSum_nil]
  | cons r rs ih =>
    have harith : pos + sizeSum (r :: rs) = pos + recSize r + sizeSum rs := by
      rw [sizeSum_cons]
      omega
    constructor
    · rintro ⟨h1, h2⟩
      have h2' := (ih (pos + recSize r)).mp h2
      refine ⟨⟨h1, h2'.1⟩, ?_⟩
      rw [harith]
      exact h2'.2
    · rintro ⟨⟨h1, h2⟩, h3⟩
      refine ⟨h1, ?_⟩
      rw [harith] at h3
      exact (ih (pos + recSize r)).mpr ⟨h2, h3⟩

/-! Characterization of put: the arena it writes and its two branches. -/

/-- The arena bytes after the four writes put performs at cursor wp. -/
def putData (d : Arena) (wp : Nat) (k v : Bytes) : Arena :=
  writeBytes
    (writeBytes
      (putUint32LE (putUint32LE d wp (k.length % 4294967296)) (wp + 4) (v.length % 4294967296))
      (wp + 8) k)
    (wp + 8 + k.length) v

theorem put_full_eq (s : Store) (k v : Bytes) (b : Bool)
    (h : maxSize < s.writingPosition + (8 + k.length + v.length)) :
    put s k v b = (s, some StoreErr.full) := by
  simp only [put]
  rw [if_pos h]

theorem put_ok_eq (s : Store) (k v : Bytes) (b : Bool)
    (h : ¬ maxSize < s.writingPosition + (8 + k.length + v.length)) :
    put s k v b =
      (⟨putData s.data s.writingPosition k v,
        fun k' => if k' = k then some s.writingPosition else s.idx k',
        s.writingPosition + (8 + k.length + v.length)⟩,
       if b then none else some StoreErr.io) := by
  simp only [put, putData]
  rw [if_neg h]

theorem putData_frame (d : Arena) (wp : Nat) (k v : Bytes) (i : Nat) (h : i < wp) :
    putData d wp k v i = d i := by
  unfold putData
  rw [writeBytes_frame _ _ _ _ (Or.inl (by omega)),
    writeBytes_frame _ _ _ _ (Or.inl (by omega)),
    putUint32LE_frame _ _ _ _ (Or.inl (by omega)),
    putUint32LE_frame _ _ _ _ (Or.inl (by omega))]

theorem putData_frame_above (d : Arena) (wp : Nat) (k v : Bytes) (i : Nat)
    (h : wp + 8 + k.length + v.length ≤ i) : putData d wp k v i = d i := by
  unfold putData
  rw [writeBytes_frame _ _ _ _ (Or.inr (by omega)),
    writeBytes_frame _ _ _ _ (Or.inr (by omega)),
    putUint32LE_frame _ _ _ _ (Or.inr (by omega)),
    putUint32LE_frame _ _ _ _ (Or.inr (by omega))]

theorem putData_at_header1 (d : Arena) (wp : Nat) (k v : Bytes) :
    ∀ j, j < 4 →
      putData d wp k v (wp + j) =
        putUint32LE (putUint32LE d wp (k.length % 4294967296)) (wp + 4)
          (v.length % 4294967296) (wp + j) := by
  intro j hj
  unfold putData
  rw [writeBytes_frame _ _ _ _ (Or.inl (by omega)),
    writeBytes_frame _ _ _ _ (Or.inl (by omega))]

theorem putData_at_header2 (d : Arena) (wp : Nat) (k v : Bytes) :
    ∀ j, j < 4 →
      putData d wp k v (wp + 4 + j) =
        putUint32LE (putUint32LE d wp (k.length % 4294967296)) (wp + 4)
          (v.length % 4294967296) (wp + 4 + j) := by
  intro j hj
  unfold putData
  rw [writeBytes_frame _ _ _ _ (Or.inl (by omega)),
    writeBytes_frame _ _ _ _ (Or.inl (by omega))]

theorem putData_klen (d : Arena) (wp : Nat) (k v : Bytes) (hk : k.length < 4294967296) :
    getUint32LE (putData d wp k v) wp = k.length := by
  have step1 :
      getUint32LE (putData d wp k v) wp =
        getUint32LE (putUint32LE (putUint32LE d wp (k.length % 4294967296)) (wp + 4)
          (v.length % 4294967296)) wp :=
    getUint32LE_congr _ _ wp (putData_at_header1 d wp k v)
  have step2 :
      getUint32LE (putUint32LE (putUint32LE d wp (k.length % 4294967296)) (wp + 4)
          (v.length % 4294967296)) wp =
        getUint32LE (putUint32LE d wp (k.length % 4294967296)) wp :=
    getUint32LE_congr _ _ wp (fun j hj => putUint32LE_frame _ _ _ _ (Or.inl (by omega)))
  rw [step1, step2, getUint32LE_putUint32LE]
  omega

theorem putData_vlen (d : Arena) (wp : Nat) (k v : Bytes) (hv : v.length < 4294967296) :
    getUint32LE (putData d wp k v) (wp + 4) = v.length := by
  have step1 :
      getUint32LE (putData d wp k v) (wp + 4) =
        getUint32LE (putUint32LE (putUint32LE d wp (k.length % 4294967296)) (wp + 4)
          (v.length % 4294967296)) (wp + 4) :=
    getUint32LE_congr _ _ (wp + 4) (putData_at_header2 d wp k v)
  rw [step1, getUint32LE_putUint32LE]
  omega

theorem putData_key (d : Arena) (wp : Nat) (k v : Bytes) :
    readBytes (putData d wp k v) (wp + 8) k.length = k := by
  have step1 :
      readBytes (putData d wp k v) (wp + 8) k.length =
        readBytes (writeBytes (putUint32LE (putUint32LE d wp (k.length % 4294967296)) (wp + 4)
          (v.length % 4294967296)) (wp + 8) k) (wp + 8) k.length := by
    refine readBytes_congr _ _ (wp + 8) k.length ?_
    intro j hj
    unfold putData
    exact writeBytes_frame _ _ _ _ (Or.inl (by omega))
  rw [step1, readBytes_writeBytes]

theorem putData_val (d : Arena) (wp : Nat) (k v : Bytes) :
    readBytes (putData d wp k v) (wp + 8 + k.length) v.length = v := by
  unfold putData
  exact readBytes_writeBytes _ _ v

theorem recAt_putData (d : Arena) (wp : Nat) (k v : Bytes)
    (hk : k.length < 4294967296) (hv : v.length < 4294967296) :
    recAt (putData d wp k v) wp ⟨k, v⟩ :=
  ⟨putData_klen d wp k v hk, putData_vlen d wp k v hv, putData_key d wp k v,
   putData_val d wp k v⟩

/-! Lemmas about the scan-built index. -/

theorem scanIdx_append_single (rs : List Record) (r : Record) :
    ∀ (pos : Nat) (idx : Idx) (k : Bytes),
      scanIdx idx pos (rs ++ [r]) k =
        if k = r.key then some (pos + sizeSum rs) else scanIdx idx pos rs k := by
  induction rs with
  | nil =>
    intro pos idx k
    show (if k = r.key then some pos else idx k) = _
    rw [sizeSum_nil, Nat.add_zero]
    rfl
  | cons r0 rs ih =>
    intro pos idx k
    have harith : pos + sizeSum (r0 :: rs) = pos + recSize r0 + sizeSum rs := by
      rw [sizeSum_cons]
      omega
    calc scanIdx idx pos ((r0 :: rs) ++ [r]) k
        = scanIdx (fun kk => if kk = r0.key then some pos else idx kk)
            (pos + recSize r0) (rs ++ [r]) k := rfl
      _ = if k = r.key then some (pos + recSize r0 + sizeSum rs)
          else scanIdx (fun kk => if kk = r0.key then some pos else idx kk)
            (pos + recSize r0) rs k := ih _ _ _
      _ = if k = r.key then some (pos + sizeSum (r0 :: rs))
          else scanIdx idx pos (r0 :: rs) k := by
            rw [harith]
            rfl

theorem scanIdx_sound (d : Arena) : ∀ (rs : List Record) (pos : Nat) (idx : Idx),
    recsFrom d pos rs →
    (∀ k off, idx k = some off → ∃ r, recAt d off r ∧ r.key = k ∧ off + recSize r ≤ pos) →
    ∀ k off, scanIdx idx pos rs k = some off →
      ∃ r, recAt d off r ∧ r.key = k ∧ off + recSize r ≤ pos + sizeSum rs := by
  intro rs
  induction rs with
  | nil =>
    intro pos idx _ hidx k off h
    have := hidx k off h
    rw [sizeSum_nil]
    simpa using this
  | cons r rs ih =>
    intro pos idx hrec hidx k off h
    obtain ⟨ha, hrest⟩ := hrec
    have hupd : ∀ k' off',
        (fun kk => if kk = r.key then some pos else idx kk) k' = some off' →
        ∃ rr, recAt d off' rr ∧ rr.key = k' ∧ off' + recSize rr ≤ pos + recSize r := by
      intro k' off' h'
      simp only at h'
      by_cases hk : k' = r.key
      · rw [if_pos hk] at h'
        have hoff : pos = off' := Option.some.inj h'
        subst hoff
        exact ⟨r, ha, hk.symm, Nat.le_refl _⟩
      · rw [if_neg hk] at h'
        obtain ⟨rr, h1, h2, h3⟩ := hidx k' off' h'
        exact ⟨rr, h1, h2, by have := recSize_ge r; omega⟩
    obtain ⟨rr, h1, h2, h3⟩ := ih (pos + recSize r) _ hrest hupd k off h
    refine ⟨rr, h1, h2, ?_⟩
    rw [sizeSum_cons]
    omega

theorem scanIdx_eq_lastOffset : ∀ (rs : List Record) (pos : Nat) (idx : Idx) (k : Bytes),
    scanIdx idx pos rs k =
      match lastOffset rs pos k with
      | some off => some off
      | none => idx k := by
  intro rs
  induction rs with
  | nil =>
    intro pos idx k
    rfl
  | cons r rs ih =>
    intro pos idx k
    have hstep : scanIdx idx pos (r :: rs) k =
        scanIdx (fun kk => if kk = r.key then some pos else idx kk) (pos + recSize r) rs k :=
      rfl
    rw [hstep, ih]
    simp only [lastOffset]
    rcases h : lastOffset rs (pos + recSize r) k with _ | off
    · by_cases hk : k = r.key
      · simp [hk]
      · simp [hk]
    · rfl

/-! The recovery scan characterized on an arena of packed records
followed by zeros: it walks a maximal sentinel-free chunk of the
records, indexing each, and stops either at the end or at the first
record whose header is all zero. -/

theorem fixIdxLoop_scan (d : Arena) : ∀ (rs : List Record) (fuel pos : Nat) (idx : Idx),
    recsFrom d pos rs →
    (∀ i, pos + sizeSum rs ≤ i → d i = 0) →
    pos + sizeSum rs ≤ maxSize →
    rs.length < fuel →
    ∃ rs₁ rs₂, rs = rs₁ ++ rs₂ ∧
      (rs₂ = [] ∨ ∃ r rest, rs₂ = r :: rest ∧ r.key.length = 0 ∧ r.val.length = 0) ∧
      fixIdxLoop d fuel pos idx = (scanIdx idx pos rs₁, pos + sizeSum rs₁) := by
  intro rs
  induction rs with
  | nil =>
    intro fuel pos idx _ hzero hle hfuel
    cases fuel with
    | zero => omega
    | succ f =>
      refine ⟨[], [], rfl, Or.inl rfl, ?_⟩
      rw [sizeSum_nil] at hzero hle ⊢
      simp only [Nat.add_zero] at hzero hle ⊢
      show fixIdxLoop d (f + 1) pos idx = (idx, pos)
      simp only [fixIdxLoop]
      by_cases hle8 : pos + 8 ≤ maxSize
      · rw [if_pos hle8]
        have hk : getUint32LE d pos = 0 := getUint32LE_eq_zero d pos pos (Nat.le_refl _) hzero
        have hv : getUint32LE d (pos + 4) = 0 :=
          getUint32LE_eq_zero d (pos + 4) pos (by omega) hzero
        rw [hk, hv, if_pos ⟨rfl, rfl⟩]
      · rw [if_neg hle8]
  | cons r rs ih =>
    intro fuel pos idx hrec hzero hle hfuel
    cases fuel with
    | zero => simp at hfuel
    | succ f =>
      obtain ⟨ha, hrest⟩ := hrec
      have hsz : sizeSum (r :: rs) = recSize r + sizeSum rs := sizeSum_cons r rs
      have hr8 := recSize_ge r
      have hle8 : pos + 8 ≤ maxSize := by omega
      have hklen := ha.1
      have hvlen := ha.2.1
      have hkey := ha.2.2.1
      simp only [fixIdxLoop]
      rw [if_pos hle8, hklen, hvlen]
      by_cases hsent : r.key.length = 0 ∧ r.val.length = 0
      · rw [if_pos hsent]
        exact ⟨[], r :: rs, rfl, Or.inr ⟨r, rs, rfl, hsent.1, hsent.2⟩, by
          rw [sizeSum_nil, Nat.add_zero]; rfl⟩
      · rw [if_neg hsent]
        simp only [hkey]
        have hpos : pos + 8 + r.key.length + r.val.length = pos + recSize r := by
          unfold recSize
          omega
        rw [hpos]
        have hfuel' : rs.length < f := by
          simp only [List.length_cons] at hfuel
          omega
        obtain ⟨rs₁, rs₂, heq, hsplit, hloop⟩ :=
          ih f (pos + recSize r) (fun kk => if kk = r.key then some pos else idx kk)
            hrest (fun i hi => hzero i (by omega)) (by omega) hfuel'
        refine ⟨r :: rs₁, rs₂, by rw [List.cons_append, ← heq], hsplit, ?_⟩
        rw [hloop]
        have h1 : scanIdx (fun kk => if kk = r.key then some pos else idx kk)
            (pos + recSize r) rs₁ = scanIdx idx pos (r :: rs₁) := rfl
        have h2 : pos + recSize r + sizeSum rs₁ = pos + sizeSum (r :: rs₁) := by
          rw [sizeSum_cons]
          omega
        rw [h1, h2]

/-! The store invariant tied to a ghost list of appended records, and
its preservation by the store operations. -/

structure Inv (rs : List Record) (s : Store) : Prop where
  wp_le : s.writingPosition ≤ maxSize
  recs : recsFrom s.data 0 rs
  size : sizeSum rs = s.writingPosition
  zeros : ∀ i, s.writingPosition ≤ i → s.data i = 0
  idxRec : ∀ k off, s.idx k = some off →
    ∃ r, recAt s.data off r ∧ r.key = k ∧ off + recSize r ≤ s.writingPosition
  live : ∀ k off, s.idx k = some off → scanIdx emptyIdx 0 rs k = some off

theorem inv_init : Inv [] initStore := by
  refine ⟨Nat.zero_le _, trivial, rfl, fun i _ => rfl, ?_, ?_⟩
  · intro k off h
    exact absurd h (by simp [initStore, emptyIdx])
  · intro k off h
    exact absurd h (by simp [initStore, emptyIdx])

theorem maxSize_lt_u32 : maxSize < 4294967296 := by
  unfold maxSize
  omega

theorem inv_mk (d : Arena) (idx : Idx) (wp : Nat) (rs : List Record)
    (h1 : wp ≤ maxSize) (h2 : recsFrom d 0 rs) (h3 : sizeSum rs = wp)
    (h4 : ∀ i, wp ≤ i → d i = 0)
    (h5 : ∀ k off, idx k = some off →
      ∃ r, recAt d off r ∧ r.key = k ∧ off + recSize r ≤ wp)
    (h6 : ∀ k off, idx k = some off → scanIdx emptyIdx 0 rs k = some off) :
    Inv rs ⟨d, idx, wp⟩ :=
  ⟨h1, h2, h3, h4, h5, h6⟩

theorem inv_put_ok (rs : List Record) (s : Store) (k v : Bytes) (b : Bool)
    (hInv : Inv rs s) (h : ¬ maxSize < s.writingPosition + (8 + k.length + v.length)) :
    Inv (rs ++ [⟨k, v⟩]) (put s k v b).1 := by
  have hm := maxSize_lt_u32
  have hk32 : k.length < 4294967296 := by omega
  have hv32 : v.length < 4294967296 := by omega
  have hsize := hInv.size
  have hrecsz : recSize ⟨k, v⟩ = 8 + k.length + v.length := rfl
  have hnewrec : recAt (putData s.data s.writingPosition k v) s.writingPosition ⟨k, v⟩ :=
    recAt_putData s.data s.writingPosition k v hk32 hv32
  rw [put_ok_eq s k v b h]
  refine inv_mk _ _ _ _ ?_ ?_ ?_ ?_ ?_ ?_
  · omega
  · rw [recsFrom_append]
    constructor
    · refine recsFrom_congr s.data _ rs 0 ?_ hInv.recs
      intro i hi
      exact putData_frame s.data s.writingPosition k v i (by omega)
    · refine ⟨?_, trivial⟩
      have hsz : (0 : Nat) + sizeSum rs = s.writingPosition := by omega
      rw [hsz]
      exact hnewrec
  · rw [sizeSum_append, sizeSum_cons, sizeSum_nil, hrecsz]
    omega
  · intro i hi
    rw [putData_frame_above s.data s.writingPosition k v i (by omega)]
    exact hInv.zeros i (by omega)
  · intro k' off h'
    by_cases hk : k' = k
    · rw [if_pos hk] at h'
      have hoff : s.writingPosition = off := Option.some.inj h'
      subst hoff
      refine ⟨⟨k, v⟩, hnewrec, hk.symm, ?_⟩
      rw [hrecsz]
    · rw [if_neg hk] at h'
      obtain ⟨r, h1, h2, h3⟩ := hInv.idxRec k' off h'
      refine ⟨r, ?_, h2, by omega⟩
      refine recAt_congr s.data _ off r ?_ h1
      intro i hi
      exact putData_frame s.data s.writingPosition k v i (by omega)
  · intro k' off h'
    rw [scanIdx_append_single rs ⟨k, v⟩ 0 emptyIdx k']
    by_cases hk : k' = k
    · rw [if_pos hk] at h'
      have hoff : s.writingPosition = off := Option.some.inj h'
      have hz : (0 : Nat) + sizeSum rs = off := by omega
      rw [if_pos (show k' = Record.key ⟨k, v⟩ from hk), hz]
    · rw [if_neg hk] at h'
      rw [if_neg (show ¬ k' = Record.key ⟨k, v⟩ from hk)]
      exact hInv.live k' off h'

theorem inv_del (rs : List Record) (s : Store) (k : Bytes) (hInv : Inv rs s) :
    Inv rs (deleteVal s k).1 := by
  refine ⟨hInv.wp_le, hInv.recs, hInv.size, hInv.zeros, ?_, ?_⟩
  · intro k' off h'
    simp only [deleteVal] at h'
    by_cases hk : k' = k
    · rw [if_pos hk] at h'
      exact absurd h' (by simp)
    · rw [if_neg hk] at h'
      exact hInv.idxRec k' off h'
  · intro k' off h'
    simp only [deleteVal] at h'
    by_cases hk : k' = k
    · rw [if_pos hk] at h'
      exact absurd h' (by simp)
    · rw [if_neg hk] at h'
      exact hInv.live k' off h'

theorem fixIdx_of_inv (rs : List Record) (s : Store) (hInv : Inv rs s)
    (hns : ∀ r ∈ rs, nonSentRec r) :
    fixIdx s.data = (scanIdx emptyIdx 0 rs, s.writingPosition) := by
  have h8 := sizeSum_length rs
  have hwp := hInv.wp_le
  have hsz := hInv.size
  have hm : maxSize = 8388608 := rfl
  have hlen : rs.length < maxSize := by omega
  obtain ⟨rs₁, rs₂, heq, hsplit, hloop⟩ :=
    fixIdxLoop_scan s.data rs maxSize 0 emptyIdx hInv.recs
      (fun i hi => hInv.zeros i (by omega)) (by omega) hlen
  rcases hsplit with h2 | ⟨r, rest, h2, hk0, hv0⟩
  · have hrs : rs₁ = rs := by rw [heq, h2, List.append_nil]
    unfold fixIdx
    rw [hloop, hrs]
    rw [show (0 : Nat) + sizeSum rs = s.writingPosition by omega]
  · exfalso
    have hmem : r ∈ rs := by
      rw [heq, h2]
      exact List.mem_append_right rs₁ (List.mem_cons_self r rest)
    exact hns r hmem ⟨hk0, hv0⟩

theorem inv_restart (rs : List Record) (s : Store) (hInv : Inv rs s)
    (hns : ∀ r ∈ rs, nonSentRec r) : Inv rs (restart s) := by
  have hfix := fixIdx_of_inv rs s hInv hns
  have h1 : (restart s).idx = scanIdx emptyIdx 0 rs := by
    unfold restart
    rw [hfix]
  have h2 : (restart s).writingPosition = s.writingPosition := by
    unfold restart
    rw [hfix]
  have h3 : (restart s).data = s.data := rfl
  refine ⟨?_, ?_, ?_, ?_, ?_, ?_⟩
  · rw [h2]
    exact hInv.wp_le
  · rw [h3]
    exact hInv.recs
  · rw [h2]
    exact hInv.size
  · rw [h2, h3]
    exact hInv.zeros
  · intro k off h'
    rw [h1] at h'
    rw [h2, h3]
    have hempty : ∀ (k' : Bytes) (off' : Nat), emptyIdx k' = some off' →
        ∃ r, recAt s.data off' r ∧ r.key = k' ∧ off' + recSize r ≤ 0 := by
      intro k' off' h''
      exact absurd h'' (by simp [emptyIdx])
    have := scanIdx_sound s.data rs 0 emptyIdx hInv.recs hempty k off h'
    obtain ⟨r, ha, hb, hc⟩ := this
    refine ⟨r, ha, hb, ?_⟩
    have := hInv.size
    omega
  · intro k off h'
    rw [h1] at h'
    exact h'

/-! Reachable states.  ReachNS additionally requires that no put ever
has both an empty key and an empty value (such a put appends the
reserved all-zero header, see the sentinel results). -/

inductive Reach : Store → Prop
  | init : Reach initStore
  | putStep (s : Store) (k v : Bytes) (b : Bool) : Reach s → Reach (put s k v b).1
  | delStep (s : Store) (k : Bytes) : Reach s → Reach (deleteVal s k).1
  | restartStep (s : Store) : Reach s → Reach (restart s)

inductive ReachNS : Store → Prop
  | init : ReachNS initStore
  | putStep (s : Store) (k v : Bytes) (b : Bool) :
      ReachNS s → ¬(k.length = 0 ∧ v.length = 0) → ReachNS (put s k v b).1
  | delStep (s : Store) (k : Bytes) : ReachNS s → ReachNS (deleteVal s k).1
  | restartStep (s : Store) : ReachNS s → ReachNS (restart s)

theorem reachNS_inv {s : Store} (h : ReachNS s) :
    ∃ rs, Inv rs s ∧ ∀ r ∈ rs, nonSentRec r := by
  induction h with
  | init => exact ⟨[], inv_init, by simp⟩
  | putStep s k v b _ hns ih =>
    obtain ⟨rs, hInv, hnsr⟩ := ih
    by_cases hfull : maxSize < s.writingPosition + (8 + k.length + v.length)
    · rw [put_full_eq s k v b hfull]
      exact ⟨rs, hInv, hnsr⟩
    · refine ⟨rs ++ [⟨k, v⟩], inv_put_ok rs s k v b hInv hfull, ?_⟩
      intro r hr
      rcases List.mem_append.mp hr with hr1 | hr2
      · exact hnsr r hr1
      · have : r = ⟨k, v⟩ := List.mem_singleton.mp hr2
        rw [this]
        exact hns
  | delStep s k _ ih =>
    obtain ⟨rs, hInv, hnsr⟩ := ih
    exact ⟨rs, inv_del rs s k hInv, hnsr⟩
  | restartStep s _ ih =>
    obtain ⟨rs, hInv, hnsr⟩ := ih
    exact ⟨rs, inv_restart rs s hInv hnsr, hnsr⟩

/-! Evaluating get. -/

theorem get_some_eq (s : Store) (k : Bytes) (off : Nat) (h : s.idx k = some off) :
    get s k = some (readBytes s.data (off + 8 + getUint32LE s.data off)
      (getUint32LE s.data (off + 4))) := by
  unfold get
  rw [h]

theorem get_none_eq (s : Store) (k : Bytes) (h : s.idx k = none) : get s k = none := by
  unfold get
  rw [h]

theorem get_of_recAt (s : Store) (k : Bytes) (off : Nat) (r : Record)
    (hidx : s.idx k = some off) (hr : recAt s.data off r) : get s k = some r.val := by
  rw [get_some_eq s k off hidx, hr.1, hr.2.1, hr.2.2.2]

theorem get_after_put_self (s : Store) (k v : Bytes) (b : Bool)
    (h : ¬ maxSize < s.writingPosition + (8 + k.length + v.length)) :
    get (put s k v b).1 k = some v := by
  have hm := maxSize_lt_u32
  have hk32 : k.length < 4294967296 := by omega
  have hv32 : v.length < 4294967296 := by omega
  rw [put_ok_eq s k v b h]
  have hidx' :
      (⟨putData s.data s.writingPosition k v,
        fun kk => if kk = k then some s.writingPosition else s.idx kk,
        s.writingPosition + (8 + k.length + v.length)⟩ : Store).idx k =
        some s.writingPosition := by
    show (if k = k then some s.writingPosition else s.idx k) = some s.writingPosition
    rw [if_pos rfl]
  exact get_of_recAt _ k s.writingPosition ⟨k, v⟩ hidx'
    (recAt_putData s.data s.writingPosition k v hk32 hv32)

theorem get_after_put_other (rs : List Record) (s : Store) (k v : Bytes) (b : Bool)
    (k' : Bytes) (hInv : Inv rs s)
    (h : ¬ maxSize < s.writingPosition + (8 + k.length + v.length)) (hk : ¬ k' = k) :
    get (put s k v b).1 k' = get s k' := by
  rw [put_ok_eq s k v b h]
  cases hidx : s.idx k' with
  | none =>
    rw [get_none_eq s k' hidx]
    refine get_none_eq _ k' ?_
    show (if k' = k then some s.writingPosition else s.idx k') = none
    rw [if_neg hk, hidx]
  | some off =>
    obtain ⟨r, hr, hrk, hbound⟩ := hInv.idxRec k' off hidx
    have hr' : recAt (putData s.data s.writingPosition k v) off r := by
      refine recAt_congr s.data _ off r ?_ hr
      intro i hi
      exact putData_frame s.data s.writingPosition k v i (by omega)
    have hidx' :
        (⟨putData s.data s.writingPosition k v,
          fun kk => if kk = k then some s.writingPosition else s.idx kk,
          s.writingPosition + (8 + k.length + v.length)⟩ : Store).idx k' = some off := by
      show (if k' = k then some s.writingPosition else s.idx k') = some off
      rw [if_neg hk, hidx]
    rw [get_of_recAt _ k' off r hidx' hr', get_of_recAt s k' off r hidx hr]

/-! Simulation of a sequence of fitting puts against the naive map
semantics (the most recent put wins). -/

theorem puts_sim : ∀ (ps : List (Bytes × Bytes)) (s : Store) (rs : List Record),
    Inv rs s → putsFitB s.writingPosition ps = true →
    ∀ k, get (applyOps s (ps.map fun p => Op.put p.1 p.2)) k =
      match lastVal ps k with
      | some v => some v
      | none => get s k := by
  intro ps
  induction ps with
  | nil =>
    intro s rs _ _ k
    rfl
  | cons p ps ih =>
    obtain ⟨k0, v0⟩ := p
    intro s rs hInv hfit k
    have hok : ¬ maxSize < s.writingPosition + (8 + k0.length + v0.length) := by
      by_cases hc : maxSize < s.writingPosition + (8 + k0.length + v0.length)
      · exfalso
        unfold putsFitB at hfit
        rw [if_pos hc] at hfit
        exact Bool.false_ne_true hfit
      · exact hc
    have hrest : putsFitB (s.writingPosition + (8 + k0.length + v0.length)) ps = true := by
      unfold putsFitB at hfit
      rw [if_neg hok] at hfit
      exact hfit
    have hInv' := inv_put_ok rs s k0 v0 true hInv hok
    have hwp' : (put s k0 v0 true).1.writingPosition =
        s.writingPosition + (8 + k0.length + v0.length) := by
      rw [put_ok_eq s k0 v0 true hok]
    have hIH := ih (put s k0 v0 true).1 (rs ++ [⟨k0, v0⟩]) hInv' (by rw [hwp']; exact hrest) k
    have hstep : applyOps s (((k0, v0) :: ps).map fun p => Op.put p.1 p.2) =
        applyOps (put s k0 v0 true).1 (ps.map fun p => Op.put p.1 p.2) := rfl
    rw [hstep, hIH]
    simp only [lastVal]
    cases lastVal ps k with
    | some w => rfl
    | none =>
      by_cases hkk : k = k0
      · rw [if_pos hkk]
        subst hkk
        exact get_after_put_self s k v0 true hok
      · rw [if_neg hkk]
        exact get_after_put_other rs s k0 v0 true k hInv hok hkk

/-! Simulation of arbitrary operation sequences against the history
semantics (records appended, deletions ignored). -/

theorem hist_sim : ∀ (ops : List Op) (s : Store) (rs : List Record), Inv rs s →
    Inv (ops.foldl histStep (s.writingPosition, rs)).2 (applyOps s ops) ∧
    (applyOps s ops).writingPosition = (ops.foldl histStep (s.writingPosition, rs)).1 := by
  intro ops
  induction ops with
  | nil =>
    intro s rs hInv
    exact ⟨hInv, rfl⟩
  | cons op ops ih =>
    intro s rs hInv
    cases op with
    | put k v =>
      by_cases hc : maxSize < s.writingPosition + (8 + k.length + v.length)
      · have happ : applyOp s (Op.put k v) = s := by
          show (put s k v true).1 = s
          rw [put_full_eq s k v true hc]
        have hhist : histStep (s.writingPosition, rs) (Op.put k v) = (s.writingPosition, rs) := by
          simp only [histStep]
          rw [if_pos hc]
        show Inv ((ops.foldl histStep (histStep (s.writingPosition, rs) (Op.put k v)))).2
            (applyOps (applyOp s (Op.put k v)) ops) ∧
          (applyOps (applyOp s (Op.put k v)) ops).writingPosition =
            ((ops.foldl histStep (histStep (s.writingPosition, rs) (Op.put k v)))).1
        rw [hhist, happ]
        exact ih s rs hInv
      · have happ : applyOp s (Op.put k v) = (put s k v true).1 := rfl
        have hwp' : (put s k v true).1.writingPosition =
            s.writingPosition + (8 + k.length + v.length) := by
          rw [put_ok_eq s k v true hc]
        have hhist : histStep (s.writingPosition, rs) (Op.put k v) =
            (s.writingPosition + (8 + k.length + v.length), rs ++ [⟨k, v⟩]) := by
          simp only [histStep]
          rw [if_neg hc]
        have hInv' := inv_put_ok rs s k v true hInv hc
        have hIH := ih (put s k v true).1 (rs ++ [⟨k, v⟩]) hInv'
        show Inv ((ops.foldl histStep (histStep (s.writingPosition, rs) (Op.put k v)))).2
            (applyOps (applyOp s (Op.put k v)) ops) ∧
          (applyOps (applyOp s (Op.put k v)) ops).writingPosition =
            ((ops.foldl histStep (histStep (s.writingPosition, rs) (Op.put k v)))).1
        rw [hhist, happ, ← hwp']
        exact hIH
    | del k =>
      have happ : applyOp s (Op.del k) = (deleteVal s k).1 := rfl
      have hhist : histStep (s.writingPosition, rs) (Op.del k) = (s.writingPosition, rs) := rfl
      have hInv' := inv_del rs s k hInv
      have hwp' : (deleteVal s k).1.writingPosition = s.writingPosition := rfl
      have hIH := ih (deleteVal s k).1 rs hInv'
      show Inv ((ops.foldl histStep (histStep (s.writingPosition, rs) (Op.del k)))).2
          (applyOps (applyOp s (Op.del k)) ops) ∧
        (applyOps (applyOp s (Op.del k)) ops).writingPosition =
          ((ops.foldl histStep (histStep (s.writingPosition, rs) (Op.del k)))).1
      rw [hhist, happ, ← hwp']
      exact hIH

theorem hist_mem : ∀ (ops : List Op) (p : Nat) (rs : List Record) (r : Record),
    r ∈ (ops.foldl histStep (p, rs)).2 →
    r ∈ rs ∨ ∃ k v, Op.put k v ∈ ops ∧ r = ⟨k, v⟩ := by
  intro ops
  induction ops with
  | nil =>
    intro p rs r h
    exact Or.inl h
  | cons op ops ih =>
    intro p rs r h
    cases op with
    | put k v =>
      by_cases hc : maxSize < p + (8 + k.length + v.length)
      · have hh : histStep (p, rs) (Op.put k v) = (p, rs) := by
          simp only [histStep]
          rw [if_pos hc]
        rw [show (Op.put k v :: ops).foldl histStep (p, rs) =
          ops.foldl histStep (histStep (p, rs) (Op.put k v)) from rfl, hh] at h
        rcases ih p rs r h with h1 | ⟨k', v', h2, h3⟩
        · exact Or.inl h1
        · exact Or.inr ⟨k', v', List.mem_cons_of_mem _ h2, h3⟩
      · have hh : histStep (p, rs) (Op.put k v) =
            (p + (8 + k.length + v.length), rs ++ [⟨k, v⟩]) := by
          simp only [histStep]
          rw [if_neg hc]
        rw [show (Op.put k v :: ops).foldl histStep (p, rs) =
          ops.foldl histStep (histStep (p, rs) (Op.put k v)) from rfl, hh] at h
        rcases ih _ _ r h with h1 | ⟨k', v', h2, h3⟩
        · rcases List.mem_append.mp h1 with h4 | h4
          · exact Or.inl h4
          · exact Or.inr ⟨k, v, List.mem_cons_self _ _, List.mem_singleton.mp h4⟩
        · exact Or.inr ⟨k', v', List.mem_cons_of_mem _ h2, h3⟩
    | del k =>
      rw [show (Op.del k :: ops).foldl histStep (p, rs) =
        ops.foldl histStep (p, rs) from rfl] at h
      rcases ih p rs r h with h1 | ⟨k', v', h2, h3⟩
      · exact Or.inl h1
      · exact Or.inr ⟨k', v', List.mem_cons_of_mem _ h2, h3⟩

/-! Claim results. -/

/-- C1: for every sequence of put operations that all fit within
capacity, a subsequent get of any key returns exactly the value of the
most recent put for that key, byte for byte. -/
theorem put_sequence_get_last (ps : List (Bytes × Bytes)) (h : putsFitB 0 ps = true)
    (k : Bytes) :
    get (applyOps initStore (ps.map fun p => Op.put p.1 p.2)) k = lastVal ps k := by
  have hs := puts_sim ps initStore [] inv_init h k
  rw [hs]
  cases lastVal ps k with
  | some w => rfl
  | none => rfl

/-- C1 witness: two puts of key 97, then a get returns the second value. -/
theorem put_sequence_get_last_witness :
    putsFitB 0 [([97], [49]), ([97], [50])] = true ∧
    get (applyOps initStore ([([97], [49]), ([97], [50])].map fun p => Op.put p.1 p.2)) [97] =
      lastVal [([97], [49]), ([97], [50])] [97] :=
  ⟨by decide, put_sequence_get_last [([97], [49]), ([97], [50])] (by decide) [97]⟩

/-- C2 counterexample: key 97 is absent from the empty store's index,
yet deleteVal returns no error at all (the Go code deletes
unconditionally and returns nil), refuting the claimed NotFound
failure. -/
theorem delete_absent_returns_no_error :
    initStore.idx [97] = none ∧
    (deleteVal initStore [97]).2 = none ∧
    ¬ (deleteVal initStore [97]).2 = some StoreErr.keyNotFound :=
  ⟨rfl, rfl, by decide⟩

/-- C2 amended: deleteVal always succeeds with no error, whether or not
the key is present; it removes the key from the index, leaves every
other key's entry unchanged, and appends or erases no arena byte and
does not move the cursor. -/
theorem deleteVal_spec (s : Store) (key k' : Bytes) (h : ¬ k' = key) :
    (deleteVal s key).2 = none ∧
    (deleteVal s key).1.data = s.data ∧
    (deleteVal s key).1.writingPosition = s.writingPosition ∧
    (deleteVal s key).1.idx key = none ∧
    (deleteVal s key).1.idx k' = s.idx k' := by
  refine ⟨rfl, rfl, rfl, ?_, ?_⟩
  · show (if key = key then none else s.idx key) = none
    rw [if_pos rfl]
  · show (if k' = key then none else s.idx k') = s.idx k'
    rw [if_neg h]

/-- C2 amended witness at concrete keys. -/
theorem deleteVal_spec_witness :
    ¬ ([98] : Bytes) = [97] ∧ (deleteVal initStore [97]).2 = none ∧
    (deleteVal initStore [97]).1.idx [97] = none :=
  ⟨by decide, (deleteVal_spec initStore [97] [98] (by decide)).1,
   (deleteVal_spec initStore [97] [98] (by decide)).2.2.2.1⟩

/-- C4: put fails with the Full error exactly when
cursor + 8 + len(key) + len(value) exceeds capacity; on Full the entire
store (index, cursor and arena) is returned unchanged; and a put whose
record fits exactly succeeds, leaving the cursor at capacity. -/
theorem put_full_spec (s : Store) (k v : Bytes) (b : Bool) :
    ((put s k v b).2 = some StoreErr.full ↔
      maxSize < s.writingPosition + (8 + k.length + v.length)) ∧
    (maxSize < s.writingPosition + (8 + k.length + v.length) →
      put s k v b = (s, some StoreErr.full)) ∧
    (s.writingPosition + (8 + k.length + v.length) = maxSize →
      (put s k v true).2 = none ∧ (put s k v true).1.writingPosition = maxSize) := by
  refine ⟨⟨?_, ?_⟩, put_full_eq s k v b, ?_⟩
  · intro h
    by_cases hc : maxSize < s.writingPosition + (8 + k.length + v.length)
    · exact hc
    · exfalso
      rw [put_ok_eq s k v b hc] at h
      cases b with
      | true => exact Option.noConfusion h
      | false => exact StoreErr.noConfusion (Option.some.inj h)
  · intro h
    rw [put_full_eq s k v b h]
  · intro h
    rw [put_ok_eq s k v true (by omega)]
    exact ⟨rfl, h⟩

/-- C4 witness: from a store with 9 free bytes, a 10-byte record fails
with Full leaving the store unchanged, and a 9-byte record lands the
cursor exactly at capacity. -/
theorem put_full_spec_witness :
    put nearFullStore [0] [1] true = (nearFullStore, some StoreErr.full) ∧
    (put nearFullStore [0] [] true).2 = none ∧
    (put nearFullStore [0] [] true).1.writingPosition = maxSize :=
  ⟨(put_full_spec nearFullStore [0] [1] true).2.1 (by decide),
   ((put_full_spec nearFullStore [0] [] true).2.2 (by decide)).1,
   ((put_full_spec nearFullStore [0] [] true).2.2 (by decide)).2⟩

/-- C5 counterexample: when the flush (Msync) fails, put returns the
I/O error, but the index has already gained the key and the cursor has
already advanced - refuting the claim that the index entry is set only
after a successful flush and that index and cursor are unchanged on a
flush error. -/
theorem put_flush_fail_mutates :
    (put initStore [97] [98] false).2 = some StoreErr.io ∧
    (put initStore [97] [98] false).1.idx [97] = some 0 ∧
    (put initStore [97] [98] false).1.writingPosition = 10 ∧
    initStore.idx [97] = none ∧ initStore.writingPosition = 0 :=
  ⟨by decide, by decide, by decide, rfl, rfl⟩

/-- C5 amended: put updates the index entry and the cursor before the
flush; whenever the flush fails, put returns the I/O error while the
index already maps the key to the pre-call cursor and the cursor has
already advanced by the record size. -/
theorem put_flush_fail_spec (s : Store) (k v : Bytes)
    (h : ¬ maxSize < s.writingPosition + (8 + k.length + v.length)) :
    (put s k v false).2 = some StoreErr.io ∧
    (put s k v false).1.idx k = some s.writingPosition ∧
    (put s k v false).1.writingPosition = s.writingPosition + (8 + k.length + v.length) := by
  rw [put_ok_eq s k v false h]
  refine ⟨rfl, ?_, rfl⟩
  show (if k = k then some s.writingPosition else s.idx k) = some s.writingPosition
  rw [if_pos rfl]

/-- C5 amended witness at a concrete failing flush. -/
theorem put_flush_fail_spec_witness :
    ¬ maxSize < initStore.writingPosition + (8 + ([97] : Bytes).length + ([98] : Bytes).length) ∧
    (put initStore [97] [98] false).2 = some StoreErr.io :=
  ⟨by decide, (put_flush_fail_spec initStore [97] [98] (by decide)).1⟩

/-- C6: the code violates the claim - a put of an empty key and an
empty value succeeds and writes exactly the reserved all-zero 8-byte
header at the cursor, so the reachable state after it has, below the
advanced cursor, a record whose two length fields are both zero (the
recovery scanner reads an all-zero header at offset 0). -/
theorem put_empty_empty_writes_sentinel :
    (put initStore [] [] true).2 = none ∧
    (put initStore [] [] true).1.writingPosition = 8 ∧
    getUint32LE (put initStore [] [] true).1.data 0 = 0 ∧
    getUint32LE (put initStore [] [] true).1.data 4 = 0 ∧
    readBytes (put initStore [] [] true).1.data 0 8 = [0, 0, 0, 0, 0, 0, 0, 0] :=
  ⟨by decide, by decide, by decide, by decide, by decide⟩

/-- C8 counterexample: a put whose key length is 2^32 (outside the u32
range) is rejected with the Full error from the capacity check - the
code has no TooLarge error, so the claimed TooLarge failure is not what
happens (no truncated header is written either: the rejection precedes
any write). -/
theorem put_huge_key_full :
    put initStore (List.replicate 4294967296 0) [] true = (initStore, some StoreErr.full) := by
  refine put_full_eq initStore (List.replicate 4294967296 0) [] true ?_
  rw [List.length_replicate]
  decide

/-- C8 amended: any put whose key or value length lies outside the u32
range is rejected with the state unchanged, but via the Full capacity
check (capacity 8 MiB is below 2^32) rather than a TooLarge error,
which does not exist in the code; no header with truncated lengths is
ever written because the rejection happens before any byte is written. -/
theorem put_overlong_rejected_full (s : Store) (k v : Bytes) (b : Bool)
    (h : 4294967296 ≤ k.length ∨ 4294967296 ≤ v.length) :
    put s k v b = (s, some StoreErr.full) := by
  refine put_full_eq s k v b ?_
  have := maxSize_lt_u32
  omega

/-- C8 amended witness with a 2^32-byte key. -/
theorem put_overlong_rejected_full_witness :
    (4294967296 ≤ (List.replicate 4294967296 (0 : Nat)).length ∨
      4294967296 ≤ ([] : Bytes).length) ∧
    put initStore (List.replicate 4294967296 0) [] true = (initStore, some StoreErr.full) :=
  ⟨Or.inl (by rw [List.length_replicate]),
   put_overlong_rejected_full initStore (List.replicate 4294967296 0) [] true
     (Or.inl (by rw [List.length_replicate]))⟩

/-- C3 counterexample: after put("", "") followed by put(byte 97,
byte 98), the live index maps key 97 to offset 8 and the cursor is 18,
but recovery stops at the all-zero header the first put wrote at offset
0: the rebuilt index loses key 97 and the rebuilt cursor is 0, so the
scanner does not rebuild the live index with deletions restored. -/
theorem recovery_misses_after_sentinel_put :
    (applyOps initStore [Op.put [] [], Op.put [97] [98]]).idx [97] = some 8 ∧
    (applyOps initStore [Op.put [] [], Op.put [97] [98]]).writingPosition = 18 ∧
    (fixIdx (applyOps initStore [Op.put [] [], Op.put [97] [98]]).data).1 [97] = none ∧
    (fixIdx (applyOps initStore [Op.put [] [], Op.put [97] [98]]).data).2 = 0 :=
  ⟨by decide, by decide, by decide, by decide⟩

/-- C3 amended: for every sequence of puts and deletes in which no put
has both an empty key and an empty value, the recovery scanner stops at
exactly the live cursor and sets the cursor there, retains every live
index entry at its offset, and maps every key - deleted or not - to the
offset of its most recent record (later records for the same key
overwrite earlier ones during the scan). -/
theorem recovery_rebuilds_index (ops : List Op) (hns : ops.all opNonSentB = true) :
    (fixIdx (applyOps initStore ops).data).2 = (applyOps initStore ops).writingPosition ∧
    (∀ k off, (applyOps initStore ops).idx k = some off →
      (fixIdx (applyOps initStore ops).data).1 k = some off) ∧
    (∀ k, (fixIdx (applyOps initStore ops).data).1 k = lastOffset (histOf ops).2 0 k) := by
  obtain ⟨hInv, hwp⟩ := hist_sim ops initStore [] inv_init
  have h0 : ops.foldl histStep (initStore.writingPosition, []) = histOf ops := rfl
  rw [h0] at hInv hwp
  have hns' : ∀ r ∈ (histOf ops).2, nonSentRec r := by
    intro r hr
    rcases hist_mem ops 0 [] r hr with h1 | ⟨k, v, h2, h3⟩
    · exact absurd h1 (List.not_mem_nil r)
    · subst h3
      have hop := List.all_eq_true.mp hns _ h2
      intro hzero
      have hk : k = [] := List.length_eq_zero.mp hzero.1
      have hv : v = [] := List.length_eq_zero.mp hzero.2
      subst hk
      subst hv
      exact Bool.false_ne_true hop
  have hfix := fixIdx_of_inv (histOf ops).2 (applyOps initStore ops) hInv hns'
  refine ⟨?_, ?_, ?_⟩
  · rw [hfix]
  · intro k off h
    rw [hfix]
    exact hInv.live k off h
  · intro k
    rw [hfix]
    show scanIdx emptyIdx 0 (histOf ops).2 k = lastOffset (histOf ops).2 0 k
    rw [scanIdx_eq_lastOffset]
    cases lastOffset (histOf ops).2 0 k with
    | some off => rfl
    | none => rfl

/-- C3 amended witness: a put, a delete of that key, a second put;
recovery lands the cursor back on the live cursor. -/
theorem recovery_rebuilds_index_witness :
    [Op.put [97] [49], Op.del [97], Op.put [98] [50]].all opNonSentB = true ∧
    (fixIdx (applyOps initStore [Op.put [97] [49], Op.del [97], Op.put [98] [50]]).data).2 =
      (applyOps initStore [Op.put [97] [49], Op.del [97], Op.put [98] [50]]).writingPosition :=
  ⟨by decide,
   (recovery_rebuilds_index [Op.put [97] [49], Op.del [97], Op.put [98] [50]] (by decide)).1⟩

/-- C7 counterexample: badArena declares at position 0 a record with key
length 1 and value length 8388608, which extends far past capacity; the
scan does not abort - it indexes key 97 at offset 0 and exits with the
cursor at 8388617, beyond capacity; the store starts anyway. -/
theorem recovery_overrun_not_fatal :
    getUint32LE badArena 0 = 1 ∧ getUint32LE badArena 4 = 8388608 ∧
    maxSize < 0 + 8 + getUint32LE badArena 0 + getUint32LE badArena 4 ∧
    (fixIdx badArena).1 [97] = some 0 ∧
    (fixIdx badArena).2 = 8388617 ∧ maxSize < (fixIdx badArena).2 :=
  ⟨by decide, by decide, by decide, by decide, by decide, by decide⟩

/-- C7 amended: whenever the scanner decodes, at a position whose header
still lies within capacity, a non-sentinel header whose declared record
length overruns capacity, it does not abort: it indexes the decoded key
at that position and exits the loop with the cursor set to the end of
the malformed record, past capacity. -/
theorem fixIdxLoop_overrun (d : Arena) (fuel pos : Nat) (idx : Idx)
    (h1 : pos + 8 ≤ maxSize)
    (h2 : ¬(getUint32LE d pos = 0 ∧ getUint32LE d (pos + 4) = 0))
    (h3 : maxSize < pos + 8 + getUint32LE d pos + getUint32LE d (pos + 4)) :
    fixIdxLoop d (fuel + 1) pos idx =
      ((fun k => if k = readBytes d (pos + 8) (getUint32LE d pos) then some pos else idx k),
        pos + 8 + getUint32LE d pos + getUint32LE d (pos + 4)) := by
  simp only [fixIdxLoop]
  rw [if_pos h1, if_neg h2]
  cases fuel with
  | zero => rfl
  | succ f =>
    simp only [fixIdxLoop]
    rw [if_neg (by omega)]

/-- C7 amended witness on badArena. -/
theorem fixIdxLoop_overrun_witness :
    (0 + 8 ≤ maxSize ∧ ¬(getUint32LE badArena 0 = 0 ∧ getUint32LE badArena 4 = 0) ∧
      maxSize < 0 + 8 + getUint32LE badArena 0 + getUint32LE badArena 4) ∧
    fixIdxLoop badArena (0 + 1) 0 emptyIdx =
      ((fun k => if k = readBytes badArena (0 + 8) (getUint32LE badArena 0) then some 0
          else emptyIdx k),
        0 + 8 + getUint32LE badArena 0 + getUint32LE badArena 4) :=
  ⟨⟨by decide, by decide, by decide⟩,
   fixIdxLoop_overrun badArena 0 0 emptyIdx (by decide) (by decide) (by decide)⟩

/-- C9 counterexample: the store with badArena as its bytes and cursor 0
satisfies the claim's invariant (no records below the cursor), yet
running the startup recovery on it sets the cursor to 8388617, past
capacity - recovery does not preserve the invariant as claimed when the
bytes beyond the cursor are not zero. -/
theorem restart_breaks_arenaInv :
    ArenaInv ⟨badArena, emptyIdx, 0⟩ ∧
    (restart ⟨badArena, emptyIdx, 0⟩).writingPosition = 8388617 ∧
    ¬ ArenaInv (restart ⟨badArena, emptyIdx, 0⟩) := by
  refine ⟨⟨by decide, [], trivial, rfl⟩, by decide, ?_⟩
  intro h
  have hle := h.1
  rw [show (restart ⟨badArena, emptyIdx, 0⟩).writingPosition = 8388617 by decide] at hle
  exact absurd hle (by decide)

/-- C9 amended: put preserves the invariant in every branch and never
modifies a byte below the pre-operation cursor; delete changes no arena
byte and preserves the invariant; recovery modifies no bytes and
re-establishes the invariant provided the bytes from the cursor on are
zero (as holds in any store grown from a fresh zeroed file); get takes
the store as read-only input in this model and a fortiori changes
nothing. -/
theorem arenaInv_preservation (s : Store) (k v : Bytes) (b : Bool) :
    (ArenaInv s → ArenaInv (put s k v b).1 ∧
      ∀ i, i < s.writingPosition → (put s k v b).1.data i = s.data i) ∧
    (ArenaInv s → ArenaInv (deleteVal s k).1 ∧ (deleteVal s k).1.data = s.data) ∧
    ((ArenaInv s ∧ ∀ i, s.writingPosition ≤ i → s.data i = 0) →
      ArenaInv (restart s) ∧ (restart s).data = s.data) := by
  refine ⟨?_, ?_, ?_⟩
  · rintro ⟨hwp, rs, hrecs, hsz⟩
    by_cases hc : maxSize < s.writingPosition + (8 + k.length + v.length)
    · rw [put_full_eq s k v b hc]
      exact ⟨⟨hwp, rs, hrecs, hsz⟩, fun i _ => rfl⟩
    · have hm := maxSize_lt_u32
      have hk32 : k.length < 4294967296 := by omega
      have hv32 : v.length < 4294967296 := by omega
      rw [put_ok_eq s k v b hc]
      constructor
      · refine ⟨?_, rs ++ [⟨k, v⟩], ?_, ?_⟩
        · show s.writingPosition + (8 + k.length + v.length) ≤ maxSize
          omega
        · rw [recsFrom_append]
          constructor
          · refine recsFrom_congr s.data _ rs 0 ?_ hrecs
            intro i hi
            exact putData_frame s.data s.writingPosition k v i (by omega)
          · refine ⟨?_, trivial⟩
            have hz : (0 : Nat) + sizeSum rs = s.writingPosition := by omega
            rw [hz]
            exact recAt_putData s.data s.writingPosition k v hk32 hv32
        · rw [sizeSum_append, sizeSum_cons, sizeSum_nil]
          show sizeSum rs + (recSize ⟨k, v⟩ + 0) = s.writingPosition + (8 + k.length + v.length)
          have : recSize ⟨k, v⟩ = 8 + k.length + v.length := rfl
          omega
      · intro i hi
        exact putData_frame s.data s.writingPosition k v i hi
  · rintro ⟨hwp, rs, hrecs, hsz⟩
    exact ⟨⟨hwp, rs, hrecs, hsz⟩, rfl⟩
  · rintro ⟨⟨hwp, rs, hrecs, hsz⟩, hzero⟩
    have h8 := sizeSum_length rs
    have hm : maxSize = 8388608 := rfl
    obtain ⟨rs₁, rs₂, heq, _, hloop⟩ :=
      fixIdxLoop_scan s.data rs maxSize 0 emptyIdx hrecs
        (fun i hi => hzero i (by omega)) (by omega) (by omega)
    have hsplit := (recsFrom_append s.data rs₁ rs₂ 0).mp (by rw [← heq]; exact hrecs)
    have hss : sizeSum rs₁ + sizeSum rs₂ = sizeSum rs := by
      rw [← sizeSum_append, ← heq]
    have hfix : fixIdx s.data = (scanIdx emptyIdx 0 rs₁, 0 + sizeSum rs₁) := hloop
    refine ⟨⟨?_, rs₁, ?_, ?_⟩, rfl⟩
    · show (fixIdx s.data).2 ≤ maxSize
      rw [hfix]
      show 0 + sizeSum rs₁ ≤ maxSize
      omega
    · exact hsplit.1
    · show sizeSum rs₁ = (fixIdx s.data).2
      rw [hfix]
      show sizeSum rs₁ = 0 + sizeSum rs₁
      omega

/-- C9 amended witness: the invariant holds for the empty store and is
kept by a put, a delete and a restart on it. -/
theorem arenaInv_preservation_witness :
    ArenaInv initStore ∧ ArenaInv (put initStore [97] [98] true).1 ∧
    ArenaInv (deleteVal initStore [97]).1 ∧ ArenaInv (restart initStore) := by
  have h : ArenaInv initStore := ⟨Nat.zero_le _, [], trivial, rfl⟩
  have hz : ∀ i, initStore.writingPosition ≤ i → initStore.data i = 0 := fun i _ => rfl
  exact ⟨h, ((arenaInv_preservation initStore [97] [98] true).1 h).1,
    ((arenaInv_preservation initStore [97] [98] true).2.1 h).1,
    ((arenaInv_preservation initStore [97] [98] true).2.2 ⟨h, hz⟩).1⟩

/-- C10 counterexample: s10 is reachable from the empty store by puts
and restarts, yet its index maps key 7 to offset 17 where the header
declares key length 1 and value length 8388608: the record extends past
both capacity and any valid region, so the byte region get reads for
key 7 leaves the arena bounds (in Go, get would slice out of range) -
and the recovered cursor itself sits past capacity. -/
theorem reachable_index_out_of_bounds :
    Reach s10 ∧
    s10.idx [7] = some 17 ∧
    getUint32LE s10.data 17 = 1 ∧
    getUint32LE s10.data 21 = 8388608 ∧
    maxSize < 17 + 8 + getUint32LE s10.data 17 + getUint32LE s10.data 21 ∧
    s10.writingPosition = 8388634 := by
  refine ⟨?_, by decide, by decide, by decide, by decide, by decide⟩
  exact Reach.restartStep _ (Reach.putStep _ [2] [1, 1, 1, 1, 1, 1, 1, 1] true
    (Reach.restartStep _ (Reach.putStep _ [1] [1, 0, 0, 0, 0, 0, 128, 0, 7] true
      (Reach.putStep _ [] [] true Reach.init))))

/-- C10 amended: in every store reachable by puts, deletes and restarts
where no put ever had both an empty key and an empty value, each index
entry points at the header of a record whose key equals the index key,
lying entirely below the cursor, the cursor is within capacity, the
byte region get reads stays below the cursor, and get returns exactly
that record's value. -/
theorem reachNS_index_sound (s : Store) (hs : ReachNS s) (k : Bytes) (off : Nat)
    (h : s.idx k = some off) :
    ∃ r : Record, recAt s.data off r ∧ r.key = k ∧
      off + recSize r ≤ s.writingPosition ∧
      s.writingPosition ≤ maxSize ∧
      off + 8 + getUint32LE s.data off + getUint32LE s.data (off + 4) ≤ s.writingPosition ∧
      get s k = some r.val := by
  obtain ⟨rs, hInv, _⟩ := reachNS_inv hs
  obtain ⟨r, hr, hrk, hbound⟩ := hInv.idxRec k off h
  refine ⟨r, hr, hrk, hbound, hInv.wp_le, ?_, get_of_recAt s k off r h hr⟩
  rw [hr.1, hr.2.1]
  unfold recSize at hbound
  omega

/-- C10 amended witness after a single put. -/
theorem reachNS_index_sound_witness :
    (put initStore [97] [98] true).1.idx [97] = some 0 ∧
    ∃ r : Record, recAt (put initStore [97] [98] true).1.data 0 r ∧ r.key = [97] ∧
      0 + recSize r ≤ (put initStore [97] [98] true).1.writingPosition ∧
      (put initStore [97] [98] true).1.writingPosition ≤ maxSize ∧
      0 + 8 + getUint32LE (put initStore [97] [98] true).1.data 0 +
        getUint32LE (put initStore [97] [98] true).1.data (0 + 4) ≤
        (put initStore [97] [98] true).1.writingPosition ∧
      get (put initStore [97] [98] true).1 [97] = some r.val :=
  ⟨by decide,
   reachNS_index_sound (put initStore [97] [98] true).1
     (ReachNS.putStep initStore [97] [98] true ReachNS.init (by decide)) [97] 0 (by decide)⟩

end KVStore
